import Mathlib

/-!
Shallow embedding of the numerical core of the divergence playground
(src/lib/math.ts, src/lib/mixture.ts, src/lib/divergences.ts,
src/lib/optimize.ts).  JavaScript `Float64Array`s are modelled as `List ℝ`
(exact real arithmetic); loops over `i < p.length` that read both `p[i]` and
`q[i]` are modelled with `List.zipWith`, which agrees with the source
whenever the two arrays share a grid (equal length), the situation every
claim is about.
-/

noncomputable section

open Real

/-- src/lib/mixture.ts: `type Gaussian = { mean, sigma, weight }`. -/
structure Gaussian where
  mean : ℝ
  sigma : ℝ
  weight : ℝ

instance : Inhabited Gaussian := ⟨⟨0, 0, 0⟩⟩

/-- src/lib/math.ts `sum(y, dx)`: `Σ y_i` scaled by `dx`. -/
def sum (y : List ℝ) (dx : ℝ) : ℝ := y.sum * dx

/-- src/lib/math.ts `normalizeDensity(y, dx)`: multiply each element by
`1/s` when `s = sum(y, dx) > 0`, else by `1` (a fresh copy of the input). -/
def normalizeDensity (y : List ℝ) (dx : ℝ) : List ℝ :=
  let s := sum y dx
  let inv := if s > 0 then 1 / s else 1
  y.map (fun v => v * inv)

/-- src/lib/math.ts `cumsum`, first loop: the running accumulator `s`
(`s += y[i] * dx; out[i] = s`), started from `s`. -/
def rawCumsum (dx : ℝ) : ℝ → List ℝ → List ℝ
  | _, [] => []
  | s, yi :: ys => (s + yi * dx) :: rawCumsum dx (s + yi * dx) ys

/-- src/lib/math.ts `cumsum(y, dx)`: running sums, divided by the final
value `norm = out[out.length - 1]` when `norm > 0` (for an empty array the
JS read is `undefined`, the rescale is skipped; modelled by `getLastD 0`). -/
def cumsum (y : List ℝ) (dx : ℝ) : List ℝ :=
  let out := rawCumsum dx 0 y
  let norm := out.getLastD 0
  if norm > 0 then out.map (fun v => v / norm) else out

/-- src/lib/mixture.ts `normalizeWeights(components)`: clamp each weight to
`max(0, w)`, sum, and divide by the sum unless it is exactly 0. -/
def normalizeWeights (components : List Gaussian) : List Gaussian :=
  let s := (components.map (fun c => max 0 c.weight)).sum
  if s = 0 then components.map (fun c => { c with weight := 0 })
  else components.map (fun c => { c with weight := max 0 c.weight / s })

/-- src/lib/mixture.ts `gaussianPDF(x, mean, sigma)`. -/
def gaussianPDF (x mean sigma : ℝ) : ℝ :=
  let zs := (x - mean) / sigma
  Real.exp (-0.5 * zs * zs) / (Real.sqrt 2 * Real.sqrt π * sigma)

/-- src/lib/mixture.ts `mixturePDFAt(x, comps)`. -/
def mixturePDFAt (x : ℝ) (comps : List Gaussian) : ℝ :=
  (comps.map (fun c => c.weight * gaussianPDF x c.mean c.sigma)).sum

/-- src/lib/mixture.ts `mixturePDFArray(xs, comps)`. -/
def mixturePDFArray (xs : List ℝ) (comps : List Gaussian) : List ℝ :=
  xs.map (fun x => mixturePDFAt x comps)

/-- src/lib/mixture.ts `densityOnGrid(comps, grid, dx)`: weight-normalize,
evaluate the pdf on the grid, then renormalize the discrete density. -/
def densityOnGrid (comps : List Gaussian) (grid : List ℝ) (dx : ℝ) : List ℝ :=
  normalizeDensity (mixturePDFArray grid (normalizeWeights comps)) dx

/-- src/lib/divergences.ts `const EPS = 1e-300`. -/
def EPS : ℝ := 1e-300

/-- src/lib/divergences.ts `DivergenceResult`. -/
structure DivergenceResult where
  kl_pq : ℝ
  kl_qp : ℝ
  js : ℝ
  jeffreys : ℝ
  cross_pq : ℝ
  cross_qp : ℝ
  tv : ℝ
  hellinger : ℝ
  bhattacharyya : ℝ
  w1 : ℝ

/-- src/lib/divergences.ts `kl`, loop body at index `i`
(`pi = max(p[i], 0); qi = max(q[i], EPS); if (pi > 0) s += pi*log(pi/qi)`). -/
def klTerm (a b : ℝ) : ℝ :=
  if max a 0 > 0 then max a 0 * Real.log (max a 0 / max b EPS) else 0

/-- src/lib/divergences.ts `kl(p, q, dx)`. -/
def kl (p q : List ℝ) (dx : ℝ) : ℝ := (List.zipWith klTerm p q).sum * dx

/-- src/lib/divergences.ts `crossEntropy`, loop body at index `i`. -/
def crossTerm (a b : ℝ) : ℝ :=
  if max a 0 > 0 then -(max a 0 * Real.log (max b EPS)) else 0

/-- src/lib/divergences.ts `crossEntropy(p, q, dx)`. -/
def crossEntropy (p q : List ℝ) (dx : ℝ) : ℝ := (List.zipWith crossTerm p q).sum * dx

/-- src/lib/divergences.ts `jensenShannon(p, q, dx)` with
`m[i] = 0.5*(p[i]+q[i])`. -/
def jensenShannon (p q : List ℝ) (dx : ℝ) : ℝ :=
  let m := List.zipWith (fun a b => 0.5 * (a + b)) p q
  0.5 * kl p m dx + 0.5 * kl q m dx

/-- src/lib/divergences.ts `totalVariation(p, q, dx)`. -/
def totalVariation (p q : List ℝ) (dx : ℝ) : ℝ :=
  0.5 * (List.zipWith (fun a b => |a - b|) p q).sum * dx

/-- src/lib/divergences.ts `hellingerAndBhattacharyya`, the coefficient
`bc = Σ sqrt(max(0, p_i q_i)) * dx`. -/
def bhattCoeff (p q : List ℝ) (dx : ℝ) : ℝ :=
  (List.zipWith (fun a b => Real.sqrt (max 0 (a * b))) p q).sum * dx

/-- src/lib/divergences.ts `hellingerAndBhattacharyya(p, q, dx)`:
`(hellinger, bhattacharyya)`. -/
def hellingerAndBhattacharyya (p q : List ℝ) (dx : ℝ) : ℝ × ℝ :=
  let bc := bhattCoeff p q dx
  (Real.sqrt (max 0 (1 - bc)), -Real.log (max bc EPS))

/-- src/lib/divergences.ts `wasserstein1(p, q, dx)`. -/
def wasserstein1 (p q : List ℝ) (dx : ℝ) : ℝ :=
  (List.zipWith (fun a b => |a - b|) (cumsum p dx) (cumsum q dx)).sum * dx

/-- src/lib/divergences.ts `computeAll(p, q, dx)`: normalize both inputs
once, then derive every metric from the shared normalized pair. -/
def computeAll (p q : List ℝ) (dx : ℝ) : DivergenceResult :=
  let pn := normalizeDensity p dx
  let qn := normalizeDensity q dx
  let kl_pq := kl pn qn dx
  let kl_qp := kl qn pn dx
  let hb := hellingerAndBhattacharyya pn qn dx
  { kl_pq := kl_pq
    kl_qp := kl_qp
    js := jensenShannon pn qn dx
    jeffreys := kl_pq + kl_qp
    cross_pq := crossEntropy pn qn dx
    cross_qp := crossEntropy qn pn dx
    tv := totalVariation pn qn dx
    hellinger := hb.1
    bhattacharyya := hb.2
    w1 := wasserstein1 pn qn dx }

/-- src/lib/optimize.ts `type Objective`. -/
inductive Objective
  | kl_pq | kl_qp | js | tv | hellinger | bhattacharyya | w1

/-- src/lib/optimize.ts `type ModelType`. -/
inductive ModelType
  | gaussian
  | gmm (k : ℕ)

/-- src/lib/optimize.ts `objectiveValue(p, q, dx, obj)`. -/
def objectiveValue (p q : List ℝ) (dx : ℝ) (obj : Objective) : ℝ :=
  let m := computeAll p q dx
  match obj with
  | .kl_pq => m.kl_pq
  | .kl_qp => m.kl_qp
  | .js => m.js
  | .tv => m.tv
  | .hellinger => m.hellinger
  | .bhattacharyya => m.bhattacharyya
  | .w1 => m.w1

/-- src/lib/optimize.ts `packParams`, gmm branch, `while (cs.length < k)
cs.push({mean:0, sigma:1, weight:1/k})`. -/
def padTo (k : ℕ) (cs : List Gaussian) : List Gaussian :=
  cs ++ List.replicate (k - cs.length) ⟨0, 1, 1 / (k : ℝ)⟩

/-- src/lib/optimize.ts `packParams(model, comps)`.  For the gmm branch the
three fill loops write `cs[i].mean` at `theta[i]`, `log(cs[i].sigma)` at
`theta[k+i]` and `log(cs[i].weight + 1e-12)` at `theta[2k+i]` for `i < k`;
since `cs` has length exactly `k` this is the concatenation of the three
blocks. -/
def packParams (model : ModelType) (comps : List Gaussian) : List ℝ :=
  match model with
  | .gaussian =>
    let c := comps.headD ⟨0, 1, 1⟩
    [c.mean, Real.log c.sigma]
  | .gmm k =>
    let cs := padTo k ((normalizeWeights comps).take k)
    cs.map (fun c => c.mean) ++ cs.map (fun c => Real.log c.sigma)
      ++ cs.map (fun c => Real.log (c.weight + 1e-12))

/-- src/lib/optimize.ts `Math.max(...arr)` over a `Float64Array`
(used on the nonempty logit block; JS yields `-Infinity` on an empty
array, which has no counterpart in `ℝ` and is never reached for `k ≥ 1`). -/
def listMax : List ℝ → ℝ
  | [] => 0
  | x :: xs => xs.foldl max x

/-- src/lib/optimize.ts `softmax(logits)`: subtract the max logit,
exponentiate, divide by the sum. -/
def softmax (logits : List ℝ) : List ℝ :=
  let M := listMax logits
  let exps := logits.map (fun v => Real.exp (v - M))
  exps.map (fun v => v / exps.sum)

/-- src/lib/optimize.ts `unpackParams(model, theta)`; `theta.slice(a, b)`
is `(theta.drop a).take (b - a)`, and the component loop reads the three
blocks at index `i < k`. -/
def unpackParams (model : ModelType) (theta : List ℝ) : List Gaussian :=
  match model with
  | .gaussian => [⟨theta.getD 0 0, max 1e-3 (Real.exp (theta.getD 1 0)), 1⟩]
  | .gmm k =>
    let means := theta.take k
    let logSigmas := (theta.drop k).take k
    let logits := (theta.drop (2 * k)).take k
    let weights := softmax logits
    (List.range k).map (fun i =>
      ⟨means.getD i 0, max 1e-3 (Real.exp (logSigmas.getD i 0)), weights.getD i 0⟩)

/-- src/lib/optimize.ts `objectiveForTheta(model, theta, targetY, grid, dx, obj)`. -/
def objectiveForTheta (model : ModelType) (theta : List ℝ) (targetY grid : List ℝ)
    (dx : ℝ) (obj : Objective) : ℝ :=
  objectiveValue (densityOnGrid (unpackParams model theta) grid dx) targetY dx obj

/-- src/lib/optimize.ts `makeEps(model, domain)`. -/
def makeEps (model : ModelType) (domain : ℝ × ℝ) : List ℝ :=
  match model with
  | .gaussian => [1e-3 * (domain.2 - domain.1), 5e-3]
  | .gmm k =>
    List.replicate k (1e-3 * (domain.2 - domain.1))
      ++ List.replicate k 5e-3 ++ List.replicate k 5e-3

/-- src/lib/optimize.ts `finiteDiffGrad(theta, eps, f)`: central differences
`(f(θ + e_i) - f(θ - e_i)) / (2 e_i)` coordinate by coordinate. -/
def finiteDiffGrad (theta eps : List ℝ) (f : List ℝ → ℝ) : List ℝ :=
  (List.range theta.length).map (fun i =>
    let e := eps.getD i 0
    (f (theta.set i (theta.getD i 0 + e)) - f (theta.set i (theta.getD i 0 - e)))
      / (2 * e))

/-- src/lib/optimize.ts `clampMeansInPlace(model, theta, domain)`
(functional: returns the updated vector). -/
def clampMeans (model : ModelType) (theta : List ℝ) (domain : ℝ × ℝ) : List ℝ :=
  match model with
  | .gaussian => theta.set 0 (max domain.1 (min domain.2 (theta.getD 0 0)))
  | .gmm k => theta.mapIdx (fun i v => if i < k then max domain.1 (min domain.2 v) else v)

/-- One iteration of the loop body of src/lib/optimize.ts
`fitModelToTarget`: gradient, descent update `θ_i -= lr*g_i`, mean clamp. -/
def fitStep (model : ModelType) (targetY grid : List ℝ) (dx : ℝ) (obj : Objective)
    (lr : ℝ) (domain : ℝ × ℝ) (theta : List ℝ) : List ℝ :=
  let eps := makeEps model domain
  let grad := finiteDiffGrad theta eps
    (fun th => objectiveForTheta model th targetY grid dx obj)
  clampMeans model (List.zipWith (fun t g => t - lr * g) theta grad) domain

/-- The `for (t = 0; t < steps; t++)` loop of `fitModelToTarget`:
first argument is the remaining step budget, second the current step index
`t` polled by the cancellation predicate (`if (abortSignal()) break`);
one objective value is appended to the history per completed step.
The `onUpdate` callback and the cooperative `yieldTick()` have no effect on
the returned value and are omitted. -/
def fitGo (model : ModelType) (targetY grid : List ℝ) (dx : ℝ) (obj : Objective)
    (lr : ℝ) (domain : ℝ × ℝ) (abort : ℕ → Bool) :
    ℕ → ℕ → List ℝ → List ℝ × List ℝ
  | 0, _, theta => (theta, [])
  | n + 1, t, theta =>
    if abort t then (theta, [])
    else
      let theta' := fitStep model targetY grid dx obj lr domain theta
      let value := objectiveForTheta model theta' targetY grid dx obj
      let rest := fitGo model targetY grid dx obj lr domain abort n (t + 1) theta'
      (rest.1, value :: rest.2)

/-- src/lib/optimize.ts `fitModelToTarget(opts)`: pack the initial mixture,
run the descent loop, return the decoded final mixture and the history.
A missing `abortSignal` is the constantly-false predicate. -/
def fitModelToTarget (model : ModelType) (initial : List Gaussian)
    (targetY grid : List ℝ) (dx : ℝ) (obj : Objective) (steps : ℕ) (lr : ℝ)
    (domain : ℝ × ℝ) (abort : ℕ → Bool) : List Gaussian × List ℝ :=
  let theta := packParams model initial
  let r := fitGo model targetY grid dx obj lr domain abort steps 0 theta
  (unpackParams model r.1, r.2)

/-- The spec's discrete entropy `H(P) = -Σ_{p_i>0} p_i·log(p_i)·dx`
(§4.3, the cross-entropy identity `H(P,Q) = H(P) + KL(P‖Q)`); stated from
the spec's words to compare against the source's `crossEntropy` and `kl`. -/
def specEntropy (p : List ℝ) (dx : ℝ) : ℝ :=
  (p.map (fun a => if a > 0 then -(a * Real.log a) else 0)).sum * dx

/-! ### General lemmas about the embedded definitions -/

lemma EPS_pos : (0 : ℝ) < EPS := by norm_num [EPS]

lemma EPS_le_one : EPS ≤ (1 : ℝ) := by norm_num [EPS]

lemma getLastD_map (f : ℝ → ℝ) :
    ∀ (l : List ℝ) (x : ℝ), (l.map f).getLastD (f x) = f (l.getLastD x) := by
  intro l
  induction l with
  | nil => intro x; simp
  | cons a t ih =>
    intro x
    simp only [List.map_cons, List.getLastD_cons]
    exact ih a

lemma getLastD_map_of_ne_nil (f : ℝ → ℝ) (l : List ℝ) (hl : l ≠ []) (d : ℝ) :
    (l.map f).getLastD d = f (l.getLastD d) := by
  cases l with
  | nil => exact absurd rfl hl
  | cons a t =>
    simp only [List.map_cons, List.getLastD_cons]
    exact getLastD_map f t a

lemma normalizeDensity_of_pos (y : List ℝ) (dx : ℝ) (hs : 0 < sum y dx) :
    normalizeDensity y dx = y.map (fun v => v / sum y dx) := by
  simp only [normalizeDensity, gt_iff_lt, if_pos hs]
  exact List.map_congr_left (fun v _ => by rw [mul_one_div])

lemma normalizeDensity_of_nonpos (y : List ℝ) (dx : ℝ) (hs : ¬ 0 < sum y dx) :
    normalizeDensity y dx = y := by
  simp only [normalizeDensity, gt_iff_lt, if_neg hs]
  simp

lemma rawCumsum_ne_nil (dx s : ℝ) (y : List ℝ) (hy : y ≠ []) :
    rawCumsum dx s y ≠ [] := by
  cases y with
  | nil => exact absurd rfl hy
  | cons a t => simp [rawCumsum]

lemma rawCumsum_getD (dx : ℝ) :
    ∀ (y : List ℝ) (s : ℝ) (i : ℕ), i < y.length →
      (rawCumsum dx s y).getD i 0 = s + (y.take (i + 1)).sum * dx := by
  intro y
  induction y with
  | nil => intro s i hi; simp at hi
  | cons a ys ih =>
    intro s i hi
    cases i with
    | zero => simp [rawCumsum]
    | succ i =>
      simp only [rawCumsum, List.getD_cons_succ, List.take_succ_cons, List.sum_cons]
      rw [ih (s + a * dx) i (by simpa using hi)]
      ring

lemma rawCumsum_getLastD (dx : ℝ) :
    ∀ (y : List ℝ) (s d : ℝ), y ≠ [] →
      (rawCumsum dx s y).getLastD d = s + y.sum * dx := by
  intro y
  induction y with
  | nil => intro s d h; exact absurd rfl h
  | cons a ys ih =>
    intro s d _
    cases ys with
    | nil => simp [rawCumsum]
    | cons b t =>
      rw [show rawCumsum dx s (a :: b :: t)
            = (s + a * dx) :: rawCumsum dx (s + a * dx) (b :: t) from rfl,
        List.getLastD_cons, ih (s + a * dx) (s + a * dx) (by simp)]
      simp only [List.sum_cons]
      ring

/-- Splitting a `crossEntropy` summand into the matching `specEntropy` and
`kl` summands (exact, over real arithmetic). -/
lemma crossTerm_sum_split :
    ∀ (p q : List ℝ), p.length = q.length →
      (List.zipWith crossTerm p q).sum
        = (p.map (fun a => if a > 0 then -(a * Real.log a) else 0)).sum
          + (List.zipWith klTerm p q).sum := by
  intro p
  induction p with
  | nil => intro q h; simp
  | cons a p' ih =>
    intro q h
    cases q with
    | nil => simp at h
    | cons b q' =>
      simp only [List.zipWith_cons_cons, List.map_cons, List.sum_cons]
      rw [ih q' (by simpa using h)]
      have hterm : crossTerm a b
          = (if a > 0 then -(a * Real.log a) else 0) + klTerm a b := by
        by_cases ha : 0 < a
        · have hmax : max a 0 = a := max_eq_left ha.le
          have hq : (0 : ℝ) < max b EPS := lt_of_lt_of_le EPS_pos (le_max_right b EPS)
          simp only [crossTerm, klTerm, hmax, gt_iff_lt, if_pos ha]
          rw [Real.log_div (ne_of_gt ha) (ne_of_gt hq)]
          ring
        · have hmax : max a 0 = 0 := max_eq_right (le_of_not_lt ha)
          simp [crossTerm, klTerm, hmax, ha]
      rw [hterm]
      ring

/-! ### Claim theorems -/

/-- C3: for equal-length non-negative densities, the source's
`crossEntropy(P,Q,dx)` equals the spec's `H(P)` plus the source's
`kl(P,Q,dx)` exactly, over real arithmetic. -/
theorem crossEntropy_eq_entropy_add_kl (p q : List ℝ) (dx : ℝ)
    (hlen : p.length = q.length) (hp : ∀ x ∈ p, 0 ≤ x) :
    crossEntropy p q dx = specEntropy p dx + kl p q dx := by
  unfold crossEntropy specEntropy kl
  rw [crossTerm_sum_split p q hlen]
  ring

/-- Witness for C3 at `P = [2]`, `Q = [1]`, `dx = 1`. -/
theorem crossEntropy_eq_entropy_add_kl_witness :
    crossEntropy [2] [1] 1 = specEntropy [2] 1 + kl [2] [1] 1 :=
  crossEntropy_eq_entropy_add_kl [2] [1] 1 (by simp) (by norm_num)

lemma fitGo_snd_length_le (model : ModelType) (targetY grid : List ℝ) (dx : ℝ)
    (obj : Objective) (lr : ℝ) (domain : ℝ × ℝ) (abort : ℕ → Bool) :
    ∀ (n t : ℕ) (theta : List ℝ),
      (fitGo model targetY grid dx obj lr domain abort n t theta).2.length ≤ n := by
  intro n
  induction n with
  | zero => intro t theta; simp [fitGo]
  | succ n ih =>
    intro t theta
    by_cases h : abort t = true
    · simp [fitGo, h]
    · simp only [fitGo, h, if_false]
      simpa using ih (t + 1) _

lemma fitGo_snd_length_le_abort (model : ModelType) (targetY grid : List ℝ) (dx : ℝ)
    (obj : Objective) (lr : ℝ) (domain : ℝ × ℝ) (abort : ℕ → Bool) (k : ℕ)
    (h : ∀ j, k ≤ j → abort j = true) :
    ∀ (n t : ℕ) (theta : List ℝ),
      (fitGo model targetY grid dx obj lr domain abort n t theta).2.length ≤ k - t := by
  intro n
  induction n with
  | zero => intro t theta; simp [fitGo]
  | succ n ih =>
    intro t theta
    by_cases ha : abort t = true
    · simp [fitGo, ha]
    · have ht : t < k := by
        by_contra hc
        push_neg at hc
        exact ha (h t hc)
      have hih := ih (t + 1) (fitStep model targetY grid dx obj lr domain theta)
      simp [fitGo, ha]
      omega

lemma fitGo_snd_length_eq (model : ModelType) (targetY grid : List ℝ) (dx : ℝ)
    (obj : Objective) (lr : ℝ) (domain : ℝ × ℝ) (abort : ℕ → Bool)
    (h : ∀ j, abort j = false) :
    ∀ (n t : ℕ) (theta : List ℝ),
      (fitGo model targetY grid dx obj lr domain abort n t theta).2.length = n := by
  intro n
  induction n with
  | zero => intro t theta; simp [fitGo]
  | succ n ih =>
    intro t theta
    simp only [fitGo, h t, if_false]
    simpa using ih (t + 1) _

/-- C6: cancellation and history-length contract of `fitModelToTarget`:
if the cancellation predicate is true from step `k` (0-indexed) on, the
returned history has at most `k` entries; in every case it has at most
`steps` entries; and with no cancellation exactly one entry is appended per
completed step (`length = steps`). -/
theorem fitModelToTarget_cancellation :
    (∀ (model : ModelType) (initial : List Gaussian) (targetY grid : List ℝ)
        (dx : ℝ) (obj : Objective) (steps : ℕ) (lr : ℝ) (domain : ℝ × ℝ)
        (abort : ℕ → Bool) (k : ℕ),
      (∀ j, k ≤ j → abort j = true) →
      (fitModelToTarget model initial targetY grid dx obj steps lr domain
        abort).2.length ≤ k) ∧
    (∀ (model : ModelType) (initial : List Gaussian) (targetY grid : List ℝ)
        (dx : ℝ) (obj : Objective) (steps : ℕ) (lr : ℝ) (domain : ℝ × ℝ)
        (abort : ℕ → Bool),
      (fitModelToTarget model initial targetY grid dx obj steps lr domain
        abort).2.length ≤ steps) ∧
    (∀ (model : ModelType) (initial : List Gaussian) (targetY grid : List ℝ)
        (dx : ℝ) (obj : Objective) (steps : ℕ) (lr : ℝ) (domain : ℝ × ℝ)
        (abort : ℕ → Bool),
      (∀ j, abort j = false) →
      (fitModelToTarget model initial targetY grid dx obj steps lr domain
        abort).2.length = steps) := by
  refine ⟨?_, ?_, ?_⟩
  · intro model initial targetY grid dx obj steps lr domain abort k hk
    simpa [fitModelToTarget] using
      fitGo_snd_length_le_abort model targetY grid dx obj lr domain abort k hk
        steps 0 (packParams model initial)
  · intro model initial targetY grid dx obj steps lr domain abort
    simpa [fitModelToTarget] using
      fitGo_snd_length_le model targetY grid dx obj lr domain abort
        steps 0 (packParams model initial)
  · intro model initial targetY grid dx obj steps lr domain abort hf
    simpa [fitModelToTarget] using
      fitGo_snd_length_eq model targetY grid dx obj lr domain abort hf
        steps 0 (packParams model initial)

/-- Witness for C6: aborting from step 1 caps the history at one entry
even with `steps = 3`; never aborting yields exactly 3 entries. -/
theorem fitModelToTarget_cancellation_witness :
    (fitModelToTarget .gaussian [] [] [] 0 .kl_pq 3 0 (0, 1)
      (fun j => decide (1 ≤ j))).2.length ≤ 1 ∧
    (fitModelToTarget .gaussian [] [] [] 0 .kl_pq 3 0 (0, 1)
      (fun _ => false)).2.length = 3 :=
  ⟨fitModelToTarget_cancellation.1 .gaussian [] [] [] 0 .kl_pq 3 0 (0, 1)
      (fun j => decide (1 ≤ j)) 1 (fun j hj => by simpa using hj),
   fitModelToTarget_cancellation.2.2 .gaussian [] [] [] 0 .kl_pq 3 0 (0, 1)
      (fun _ => false) (fun _ => rfl)⟩

/-- C7: `normalizeWeights` leaves means and scales unchanged, produces
non-negative weights, maps a zero clamped-weight sum to the all-zero
weighting, and otherwise makes the weights sum to exactly 1. -/
theorem normalizeWeights_spec (comps : List Gaussian) :
    ((normalizeWeights comps).map Gaussian.mean = comps.map Gaussian.mean) ∧
    ((normalizeWeights comps).map Gaussian.sigma = comps.map Gaussian.sigma) ∧
    (∀ c ∈ normalizeWeights comps, 0 ≤ c.weight) ∧
    ((comps.map (fun c => max 0 c.weight)).sum = 0 →
      ∀ c ∈ normalizeWeights comps, c.weight = 0) ∧
    ((comps.map (fun c => max 0 c.weight)).sum ≠ 0 →
      ((normalizeWeights comps).map Gaussian.weight).sum = 1) := by
  have hS0 : 0 ≤ (comps.map (fun c => max 0 c.weight)).sum := by
    apply List.sum_nonneg
    intro x hx
    simp only [List.mem_map] at hx
    obtain ⟨c, -, rfl⟩ := hx
    exact le_max_left 0 c.weight
  by_cases h : (comps.map (fun c => max 0 c.weight)).sum = 0
  · have hnw : normalizeWeights comps
        = comps.map (fun c => { c with weight := 0 }) := by
      simp only [normalizeWeights, if_pos h]
    refine ⟨?_, ?_, ?_, ?_, ?_⟩
    · simp [hnw, List.map_map, Function.comp]
    · simp [hnw, List.map_map, Function.comp]
    · intro c hc
      rw [hnw] at hc
      simp only [List.mem_map] at hc
      obtain ⟨c', -, rfl⟩ := hc
      simp
    · intro _ c hc
      rw [hnw] at hc
      simp only [List.mem_map] at hc
      obtain ⟨c', -, rfl⟩ := hc
      simp
    · intro hne
      exact absurd h hne
  · have hnw : normalizeWeights comps
        = comps.map (fun c =>
            { c with weight := max 0 c.weight / (comps.map (fun c => max 0 c.weight)).sum }) := by
      simp only [normalizeWeights, if_neg h]
    refine ⟨?_, ?_, ?_, ?_, ?_⟩
    · simp [hnw, List.map_map, Function.comp]
    · simp [hnw, List.map_map, Function.comp]
    · intro c hc
      rw [hnw] at hc
      simp only [List.mem_map] at hc
      obtain ⟨c', -, rfl⟩ := hc
      exact div_nonneg (le_max_left 0 c'.weight) hS0
    · intro h0
      exact absurd h0 h
    · intro _
      have hmap : ((normalizeWeights comps).map Gaussian.weight)
          = comps.map (fun c =>
              max 0 c.weight * ((comps.map (fun c => max 0 c.weight)).sum)⁻¹) := by
        simp [hnw, List.map_map, Function.comp, div_eq_mul_inv]
      rw [hmap, List.sum_map_mul_right comps (fun c => max 0 c.weight) _,
        mul_inv_cancel₀ h]

/-- Witness for C7 at a two-component mixture with weights 3 and 1. -/
theorem normalizeWeights_spec_witness :
    ((normalizeWeights [⟨0, 1, 3⟩, ⟨2, 1, 1⟩]).map Gaussian.weight).sum = 1 :=
  (normalizeWeights_spec [⟨0, 1, 3⟩, ⟨2, 1, 1⟩]).2.2.2.2 (by norm_num)

/-- C8: `normalizeDensity` divides by `Σ y_i·dx` when that sum is positive
(making the result integrate to exactly 1), and otherwise returns the
input unchanged. -/
theorem normalizeDensity_spec (y : List ℝ) (dx : ℝ) :
    (0 < sum y dx →
      normalizeDensity y dx = y.map (fun v => v / sum y dx) ∧
      sum (normalizeDensity y dx) dx = 1) ∧
    (¬ 0 < sum y dx → normalizeDensity y dx = y) := by
  constructor
  · intro hs
    have hs' : sum y dx ≠ 0 := ne_of_gt hs
    refine ⟨normalizeDensity_of_pos y dx hs, ?_⟩
    rw [normalizeDensity_of_pos y dx hs]
    unfold sum at hs' ⊢
    have h2 : (y.map fun v => v / (y.sum * dx)).sum = y.sum * (y.sum * dx)⁻¹ := by
      simpa [div_eq_mul_inv] using List.sum_map_mul_right y id (y.sum * dx)⁻¹
    rw [h2]
    obtain ⟨hy0, hdx0⟩ := mul_ne_zero_iff.mp hs'
    field_simp
  · intro hs
    exact normalizeDensity_of_nonpos y dx hs

/-- Witness for C8 at `y = [2]`, `dx = 1/4` (mass 1/2, rescaled to `[4]`). -/
theorem normalizeDensity_spec_witness :
    normalizeDensity [2] (1 / 4) = [2 / sum [2] (1 / 4)] ∧
    sum (normalizeDensity [2] (1 / 4)) (1 / 4) = 1 := by
  have h := (normalizeDensity_spec [2] (1 / 4)).1 (by norm_num [sum])
  exact ⟨by simpa using h.1, h.2⟩

/-- C9: `cumsum` produces the running sums `c_i = Σ_{j≤i} y_j·dx`, rescaled
by the final cumulative value when that value is positive (so the last
entry is exactly 1), and unrescaled otherwise. -/
theorem cumsum_spec (y : List ℝ) (dx : ℝ) (hy : y ≠ []) :
    (∀ i, i < y.length →
      (rawCumsum dx 0 y).getD i 0 = (y.take (i + 1)).sum * dx) ∧
    (0 < (rawCumsum dx 0 y).getLastD 0 →
      cumsum y dx
        = (rawCumsum dx 0 y).map (fun v => v / (rawCumsum dx 0 y).getLastD 0) ∧
      (cumsum y dx).getLastD 0 = 1) ∧
    (¬ 0 < (rawCumsum dx 0 y).getLastD 0 → cumsum y dx = rawCumsum dx 0 y) := by
  refine ⟨fun i hi => by simpa using rawCumsum_getD dx y 0 i hi,
    fun hpos => ?_, fun hneg => ?_⟩
  · have h1 : cumsum y dx
        = (rawCumsum dx 0 y).map (fun v => v / (rawCumsum dx 0 y).getLastD 0) := by
      simp only [cumsum, gt_iff_lt, if_pos hpos]
    refine ⟨h1, ?_⟩
    rw [h1]
    rw [getLastD_map_of_ne_nil (fun v => v / (rawCumsum dx 0 y).getLastD 0)
      (rawCumsum dx 0 y) (rawCumsum_ne_nil dx 0 y hy) 0]
    exact div_self (ne_of_gt hpos)
  · simp only [cumsum, gt_iff_lt, if_neg hneg]

/-- Witness for C9 at `y = [2]`, `dx = 1`. -/
theorem cumsum_spec_witness : (cumsum [2] 1).getLastD 0 = 1 :=
  ((cumsum_spec [2] 1 (by simp)).2.1 (by norm_num [rawCumsum])).2

lemma normalizeDensity_smul (p : List ℝ) (dx a : ℝ) (ha : 0 < a)
    (hs : 0 < sum p dx) :
    normalizeDensity (p.map (fun v => a * v)) dx = normalizeDensity p dx := by
  have hsum : (p.map (fun v => a * v)).sum = a * p.sum := by
    simpa using List.sum_map_mul_left p id a
  have hs' : 0 < sum (p.map (fun v => a * v)) dx := by
    unfold sum at hs ⊢
    rw [hsum]
    calc (0:ℝ) < a * (p.sum * dx) := by positivity
    _ = a * p.sum * dx := by ring
  have ha0 : a ≠ 0 := ne_of_gt ha
  have hsval : sum (p.map (fun v => a * v)) dx = a * sum p dx := by
    unfold sum
    rw [hsum]
    ring
  rw [normalizeDensity_of_pos _ _ hs', normalizeDensity_of_pos _ _ hs,
    List.map_map]
  apply List.map_congr_left
  intro v _
  simp only [Function.comp, hsval]
  rw [mul_div_mul_left v (sum p dx) ha0]

/-- C10: `computeAll` is invariant under positive rescaling of either
input density (both inputs are normalized once before any metric is
derived). -/
theorem computeAll_scale_invariant (p q : List ℝ) (dx a b : ℝ)
    (ha : 0 < a) (hb : 0 < b)
    (hp : ∀ x ∈ p, 0 ≤ x) (hq : ∀ x ∈ q, 0 ≤ x)
    (hps : 0 < sum p dx) (hqs : 0 < sum q dx) :
    computeAll (p.map (fun v => a * v)) (q.map (fun v => b * v)) dx
      = computeAll p q dx := by
  unfold computeAll
  rw [normalizeDensity_smul p dx a ha hps, normalizeDensity_smul q dx b hb hqs]

/-- Witness for C10: doubling `P` and tripling `Q` leaves every metric
unchanged. -/
theorem computeAll_scale_invariant_witness :
    computeAll ([1].map (fun v => 2 * v)) ([1].map (fun v => 3 * v)) 1
      = computeAll [1] [1] 1 :=
  computeAll_scale_invariant [1] [1] 1 2 3 (by norm_num) (by norm_num)
    (by norm_num) (by norm_num) (by norm_num [sum]) (by norm_num [sum])

lemma zipWith_self (f : ℝ → ℝ → ℝ) (l : List ℝ) :
    List.zipWith f l l = l.map (fun x => f x x) := by
  induction l with
  | nil => rfl
  | cons a t ih => simp [ih]

lemma sum_zipWith_abs_sub_self (l : List ℝ) :
    (List.zipWith (fun a b => |a - b|) l l).sum = 0 := by
  rw [zipWith_self]
  apply List.sum_eq_zero
  intro x hx
  simp only [List.mem_map] at hx
  obtain ⟨a, -, rfl⟩ := hx
  simp

lemma kl_self_eq_zero (l : List ℝ) (dx : ℝ)
    (he : ∀ x ∈ l, x = 0 ∨ EPS ≤ x) : kl l l dx = 0 := by
  unfold kl
  rw [zipWith_self]
  have : (l.map (fun x => klTerm x x)).sum = 0 := by
    apply List.sum_eq_zero
    intro x hx
    simp only [List.mem_map] at hx
    obtain ⟨a, ha, rfl⟩ := hx
    rcases he a ha with h0 | hge
    · simp [klTerm, h0]
    · have hapos : (0:ℝ) < a := lt_of_lt_of_le EPS_pos hge
      have h1 : max a 0 = a := max_eq_left hapos.le
      have h2 : max a EPS = a := max_eq_left hge
      simp [klTerm, h1, h2, div_self (ne_of_gt hapos)]
  rw [this, zero_mul]

lemma crossEntropy_self_eq_entropy (l : List ℝ) (dx : ℝ)
    (he : ∀ x ∈ l, x = 0 ∨ EPS ≤ x) :
    crossEntropy l l dx = specEntropy l dx := by
  unfold crossEntropy specEntropy
  rw [zipWith_self]
  congr 1
  apply congrArg List.sum
  apply List.map_congr_left
  intro a ha
  rcases he a ha with h0 | hge
  · simp [crossTerm, h0]
  · have hapos : (0:ℝ) < a := lt_of_lt_of_le EPS_pos hge
    have h1 : max a 0 = a := max_eq_left hapos.le
    have h2 : max a EPS = a := max_eq_left hge
    simp [crossTerm, h1, h2, hapos]

lemma mid_self (l : List ℝ) :
    List.zipWith (fun a b => 0.5 * (a + b)) l l = l := by
  rw [zipWith_self]
  have : l.map (fun x => 0.5 * (x + x)) = l.map id :=
    List.map_congr_left (fun x _ => by rw [id_eq]; ring)
  rw [this, List.map_id]

lemma bhattCoeff_self (l : List ℝ) (dx : ℝ) (hl : ∀ x ∈ l, 0 ≤ x) :
    bhattCoeff l l dx = l.sum * dx := by
  unfold bhattCoeff
  rw [zipWith_self]
  have : l.map (fun x => Real.sqrt (max 0 (x * x))) = l.map id := by
    apply List.map_congr_left
    intro x hx
    simp only [id_eq]
    rw [max_eq_right (mul_self_nonneg x), Real.sqrt_mul_self (hl x hx)]
  rw [this, List.map_id]

lemma normalizeDensity_nonneg (p : List ℝ) (dx : ℝ) (hp : ∀ x ∈ p, 0 ≤ x)
    (hs : 0 < sum p dx) : ∀ x ∈ normalizeDensity p dx, 0 ≤ x := by
  intro x hx
  rw [normalizeDensity_of_pos p dx hs] at hx
  simp only [List.mem_map] at hx
  obtain ⟨v, hv, rfl⟩ := hx
  exact div_nonneg (hp v hv) hs.le

lemma normalizeDensity_sum (p : List ℝ) (dx : ℝ) (hs : 0 < sum p dx) :
    (normalizeDensity p dx).sum * dx = 1 := by
  have := (by
    rw [normalizeDensity_of_pos p dx hs]
    unfold sum at hs ⊢
    have h2 : (p.map fun v => v / (p.sum * dx)).sum = p.sum * (p.sum * dx)⁻¹ := by
      simpa [div_eq_mul_inv] using List.sum_map_mul_right p id (p.sum * dx)⁻¹
    rw [h2]
    obtain ⟨hy0, hdx0⟩ := mul_ne_zero_iff.mp (ne_of_gt hs)
    field_simp : sum (normalizeDensity p dx) dx = 1)
  simpa [sum] using this

/-- C2 (amended): for identical inputs `P = Q` (non-negative, with positive
mass, every normalized entry either 0 or at least `EPS`), every metric of
`computeAll` is exactly 0 — except the two cross-entropies, which equal the
discrete entropy `H(P)` of the normalized density instead. -/
theorem computeAll_equal_densities (p : List ℝ) (dx : ℝ)
    (hp : ∀ x ∈ p, 0 ≤ x) (hs : 0 < sum p dx)
    (he : ∀ x ∈ normalizeDensity p dx, x = 0 ∨ EPS ≤ x) :
    (computeAll p p dx).kl_pq = 0 ∧ (computeAll p p dx).kl_qp = 0 ∧
    (computeAll p p dx).js = 0 ∧ (computeAll p p dx).jeffreys = 0 ∧
    (computeAll p p dx).tv = 0 ∧ (computeAll p p dx).hellinger = 0 ∧
    (computeAll p p dx).bhattacharyya = 0 ∧ (computeAll p p dx).w1 = 0 ∧
    (computeAll p p dx).cross_pq = specEntropy (normalizeDensity p dx) dx ∧
    (computeAll p p dx).cross_qp = specEntropy (normalizeDensity p dx) dx := by
  have hkl : kl (normalizeDensity p dx) (normalizeDensity p dx) dx = 0 :=
    kl_self_eq_zero _ dx he
  have hjs : jensenShannon (normalizeDensity p dx) (normalizeDensity p dx) dx = 0 := by
    simp only [jensenShannon]
    rw [mid_self, hkl]
    ring
  have htv : totalVariation (normalizeDensity p dx) (normalizeDensity p dx) dx = 0 := by
    unfold totalVariation
    rw [sum_zipWith_abs_sub_self]
    ring
  have hbc : bhattCoeff (normalizeDensity p dx) (normalizeDensity p dx) dx = 1 := by
    rw [bhattCoeff_self _ dx (normalizeDensity_nonneg p dx hp hs)]
    exact normalizeDensity_sum p dx hs
  have hhb : hellingerAndBhattacharyya (normalizeDensity p dx)
      (normalizeDensity p dx) dx = (0, 0) := by
    simp only [hellingerAndBhattacharyya]
    rw [hbc]
    norm_num [max_eq_left EPS_le_one]
  have hw1 : wasserstein1 (normalizeDensity p dx) (normalizeDensity p dx) dx = 0 := by
    unfold wasserstein1
    rw [sum_zipWith_abs_sub_self]
    ring
  have hce : crossEntropy (normalizeDensity p dx) (normalizeDensity p dx) dx
      = specEntropy (normalizeDensity p dx) dx :=
    crossEntropy_self_eq_entropy _ dx he
  simp only [computeAll]
  rw [hkl, hjs, htv, hhb, hw1, hce]
  norm_num

/-- Witness for C2 at `P = Q = [2, 2]`, `dx = 1/4`. -/
theorem computeAll_equal_densities_witness :
    (computeAll [2, 2] [2, 2] (1/4)).kl_pq = 0 ∧
    (computeAll [2, 2] [2, 2] (1/4)).kl_qp = 0 ∧
    (computeAll [2, 2] [2, 2] (1/4)).js = 0 ∧
    (computeAll [2, 2] [2, 2] (1/4)).jeffreys = 0 ∧
    (computeAll [2, 2] [2, 2] (1/4)).tv = 0 ∧
    (computeAll [2, 2] [2, 2] (1/4)).hellinger = 0 ∧
    (computeAll [2, 2] [2, 2] (1/4)).bhattacharyya = 0 ∧
    (computeAll [2, 2] [2, 2] (1/4)).w1 = 0 ∧
    (computeAll [2, 2] [2, 2] (1/4)).cross_pq
      = specEntropy (normalizeDensity [2, 2] (1/4)) (1/4) ∧
    (computeAll [2, 2] [2, 2] (1/4)).cross_qp
      = specEntropy (normalizeDensity [2, 2] (1/4)) (1/4) :=
  computeAll_equal_densities [2, 2] (1/4) (by norm_num) (by norm_num [sum])
    (by
      rw [normalizeDensity_of_pos _ _ (by norm_num [sum])]
      norm_num [sum, EPS])

/-- C2 counterexample: at `P = Q = [2, 2]`, `dx = 1/4` (an exactly
normalized pair), `computeAll` reports a cross-entropy of `-log 2`, far
from 0, while every other metric is exactly 0 at the same input. -/
theorem computeAll_equal_cross_entropy_not_zero :
    (computeAll [2, 2] [2, 2] (1/4)).cross_pq = -Real.log 2 ∧
    (computeAll [2, 2] [2, 2] (1/4)).cross_pq < -(1/2) := by
  have hpn : normalizeDensity [2, 2] (1/4) = [2, 2] := by
    rw [normalizeDensity_of_pos _ _ (by norm_num [sum])]
    norm_num [sum]
  have hmax2 : max (2:ℝ) EPS = 2 := max_eq_left (by norm_num [EPS])
  have hval : (computeAll [2, 2] [2, 2] (1/4)).cross_pq = -Real.log 2 := by
    simp only [computeAll]
    rw [hpn]
    unfold crossEntropy
    simp only [List.zipWith_cons_cons, List.zipWith_nil_right, List.sum_cons,
      List.sum_nil]
    rw [show crossTerm 2 2 = -(2 * Real.log 2) by
      simp [crossTerm, hmax2, max_eq_left (by norm_num : (0:ℝ) ≤ 2)]]
    ring
  refine ⟨hval, ?_⟩
  rw [hval]
  have := Real.log_two_gt_d9
  linarith

lemma mid_comm : ∀ (p q : List ℝ),
    List.zipWith (fun a b => 0.5 * (a + b)) p q
      = List.zipWith (fun a b => 0.5 * (a + b)) q p := by
  intro p
  induction p with
  | nil => intro q; cases q <;> simp
  | cons a p' ih =>
    intro q
    cases q with
    | nil => simp
    | cons b q' =>
      simp only [List.zipWith_cons_cons]
      rw [ih q']
      congr 1
      ring

lemma midSum : ∀ (p q : List ℝ), p.length = q.length →
    (List.zipWith (fun a b => 0.5 * (a + b)) p q).sum = 0.5 * (p.sum + q.sum) := by
  intro p
  induction p with
  | nil =>
    intro q h
    cases q with
    | nil => simp
    | cons b q' => simp at h
  | cons a p' ih =>
    intro q h
    cases q with
    | nil => simp at h
    | cons b q' =>
      simp only [List.zipWith_cons_cons, List.sum_cons]
      rw [ih q' (by simpa using h)]
      ring

/-- Upper bound on one KL-against-midpoint summand: since
`max(m, EPS) ≥ m ≥ a/2`, the log ratio is at most `log 2`. -/
lemma klTerm_mid_le (a b : ℝ) (ha : 0 ≤ a) (hb : 0 ≤ b) :
    klTerm a (0.5 * (a + b)) ≤ a * Real.log 2 := by
  by_cases hpos : 0 < a
  · have h1 : max a 0 = a := max_eq_left ha
    have hm : (0:ℝ) < max (0.5 * (a + b)) EPS :=
      lt_of_lt_of_le EPS_pos (le_max_right _ _)
    have hm2 : 0.5 * a ≤ max (0.5 * (a + b)) EPS :=
      le_trans (by nlinarith) (le_max_left _ _)
    have hratio : a / max (0.5 * (a + b)) EPS ≤ 2 := by
      rw [div_le_iff hm]
      nlinarith
    have hlog : Real.log (a / max (0.5 * (a + b)) EPS) ≤ Real.log 2 :=
      Real.log_le_log (div_pos hpos hm) hratio
    simp only [klTerm, h1, gt_iff_lt, if_pos hpos]
    exact mul_le_mul_of_nonneg_left hlog ha
  · have ha0 : a = 0 := le_antisymm (le_of_not_lt hpos) ha
    simp [klTerm, ha0]

/-- Lower bound on one KL-against-midpoint summand, valid when positive
entries clear twice the epsilon floor (so `max(m, EPS) = m`): the Gibbs
bound `a·log(a/m) ≥ a − m`. -/
lemma klTerm_mid_ge (a b : ℝ) (ha : 0 ≤ a) (hb : 0 ≤ b)
    (hae : a = 0 ∨ 2 * EPS ≤ a) :
    a - 0.5 * (a + b) ≤ klTerm a (0.5 * (a + b)) := by
  rcases hae with h0 | hge
  · subst h0
    simp only [klTerm, max_self, gt_iff_lt, lt_irrefl, if_false]
    linarith
  · have hapos : (0:ℝ) < a := lt_of_lt_of_le (by linarith [EPS_pos]) hge
    have hm0 : EPS ≤ 0.5 * (a + b) := by nlinarith
    have hmax : max (0.5 * (a + b)) EPS = 0.5 * (a + b) := max_eq_left hm0
    have hmpos : (0:ℝ) < 0.5 * (a + b) := lt_of_lt_of_le EPS_pos hm0
    have h1 : max a 0 = a := max_eq_left ha
    simp only [klTerm, h1, hmax, gt_iff_lt, if_pos hapos]
    have hlog : 1 - (0.5 * (a + b)) / a ≤ Real.log (a / (0.5 * (a + b))) := by
      have hsub := Real.log_le_sub_one_of_pos (div_pos hmpos hapos)
      have hrw : Real.log (a / (0.5 * (a + b)))
          = -Real.log ((0.5 * (a + b)) / a) := by
        rw [← Real.log_inv]
        congr 1
        rw [inv_div]
      rw [hrw]
      linarith
    have hmul := mul_le_mul_of_nonneg_left hlog ha
    have heq : a * (1 - (0.5 * (a + b)) / a) = a - 0.5 * (a + b) := by
      field_simp
    rw [heq] at hmul
    exact hmul

lemma klSum_mid_upper : ∀ (p q : List ℝ), p.length = q.length →
    (∀ x ∈ p, 0 ≤ x) → (∀ x ∈ q, 0 ≤ x) →
    (List.zipWith klTerm p (List.zipWith (fun a b => 0.5 * (a + b)) p q)).sum
      ≤ Real.log 2 * p.sum := by
  intro p
  induction p with
  | nil => intro q h hp hq; simp
  | cons a p' ih =>
    intro q h hp hq
    cases q with
    | nil => simp at h
    | cons b q' =>
      simp only [List.zipWith_cons_cons, List.sum_cons]
      have ha : 0 ≤ a := hp a (by simp)
      have hb : 0 ≤ b := hq b (by simp)
      have ihu := ih q' (by simpa using h)
        (fun x hx => hp x (by simp [hx])) (fun x hx => hq x (by simp [hx]))
      have t2 := klTerm_mid_le a b ha hb
      have hsplit : Real.log 2 * (a + p'.sum)
          = a * Real.log 2 + Real.log 2 * p'.sum := by ring
      linarith

lemma klSum_mid_lower : ∀ (p q : List ℝ), p.length = q.length →
    (∀ x ∈ p, 0 ≤ x) → (∀ x ∈ q, 0 ≤ x) → (∀ x ∈ p, x = 0 ∨ 2 * EPS ≤ x) →
    p.sum - (List.zipWith (fun a b => 0.5 * (a + b)) p q).sum
      ≤ (List.zipWith klTerm p (List.zipWith (fun a b => 0.5 * (a + b)) p q)).sum := by
  intro p
  induction p with
  | nil => intro q h hp hq he; simp
  | cons a p' ih =>
    intro q h hp hq he
    cases q with
    | nil => simp at h
    | cons b q' =>
      simp only [List.zipWith_cons_cons, List.sum_cons]
      have ha : 0 ≤ a := hp a (by simp)
      have hb : 0 ≤ b := hq b (by simp)
      have hae : a = 0 ∨ 2 * EPS ≤ a := he a (by simp)
      have ihl := ih q' (by simpa using h)
        (fun x hx => hp x (by simp [hx])) (fun x hx => hq x (by simp [hx]))
        (fun x hx => he x (by simp [hx]))
      have t1 := klTerm_mid_ge a b ha hb hae
      linarith

/-- C5 (amended): for non-negative, normalized, equal-length densities with
positive grid spacing, `jensenShannon ≤ log 2` always; the lower bound 0
holds additionally when every nonzero entry of either density is at least
`2·EPS` (so the epsilon floor inside `kl` is inactive). -/
theorem jensenShannon_bounds (p q : List ℝ) (dx : ℝ)
    (hlen : p.length = q.length)
    (hp : ∀ x ∈ p, 0 ≤ x) (hq : ∀ x ∈ q, 0 ≤ x)
    (hps : sum p dx = 1) (hqs : sum q dx = 1) (hdx : 0 < dx) :
    jensenShannon p q dx ≤ Real.log 2 ∧
    ((∀ x ∈ p, x = 0 ∨ 2 * EPS ≤ x) → (∀ x ∈ q, x = 0 ∨ 2 * EPS ≤ x) →
      0 ≤ jensenShannon p q dx) := by
  have hm := midSum p q hlen
  unfold sum at hps hqs
  constructor
  · have u1 := klSum_mid_upper p q hlen hp hq
    have u2 := klSum_mid_upper q p hlen.symm hq hp
    rw [mid_comm q p] at u2
    simp only [jensenShannon]
    unfold kl
    have hu1 := mul_le_mul_of_nonneg_right u1 hdx.le
    have hu2 := mul_le_mul_of_nonneg_right u2 hdx.le
    have e1 : Real.log 2 * p.sum * dx = Real.log 2 * (p.sum * dx) := by ring
    have e2 : Real.log 2 * q.sum * dx = Real.log 2 * (q.sum * dx) := by ring
    rw [e1, hps] at hu1
    rw [e2, hqs] at hu2
    nlinarith
  · intro hpe hqe
    have l1 := klSum_mid_lower p q hlen hp hq hpe
    have l2 := klSum_mid_lower q p hlen.symm hq hp hqe
    rw [mid_comm q p] at l2
    simp only [jensenShannon]
    unfold kl
    have hl1 := mul_le_mul_of_nonneg_right l1 hdx.le
    have hl2 := mul_le_mul_of_nonneg_right l2 hdx.le
    rw [hm] at hl1 hl2
    have e1 : (p.sum - 0.5 * (p.sum + q.sum)) * dx
        = p.sum * dx - 0.5 * (p.sum * dx) - 0.5 * (q.sum * dx) := by ring
    have e2 : (q.sum - 0.5 * (p.sum + q.sum)) * dx
        = q.sum * dx - 0.5 * (p.sum * dx) - 0.5 * (q.sum * dx) := by ring
    rw [e1, hps, hqs] at hl1
    rw [e2, hps, hqs] at hl2
    nlinarith

/-- Witness for C5 (amended) at `P = [2, 2]`, `Q = [4, 0]`, `dx = 1/4`:
both the unconditional upper bound and, with the entry floor discharged,
the lower bound. -/
theorem jensenShannon_bounds_witness :
    jensenShannon [2, 2] [4, 0] (1/4) ≤ Real.log 2 ∧
    0 ≤ jensenShannon [2, 2] [4, 0] (1/4) :=
  ⟨(jensenShannon_bounds [2, 2] [4, 0] (1/4) (by simp)
      (by norm_num) (by norm_num) (by norm_num [sum]) (by norm_num [sum])
      (by norm_num)).1,
   (jensenShannon_bounds [2, 2] [4, 0] (1/4) (by simp)
      (by norm_num) (by norm_num) (by norm_num [sum]) (by norm_num [sum])
      (by norm_num)).2 (by norm_num [EPS]) (by norm_num [EPS])⟩

/-- C5 counterexample: a pair of non-negative densities on a shared
two-point grid, both exactly normalized (`Σ p_i·dx = Σ q_i·dx = 1`), on
which `jensenShannon` is strictly negative: the entry `EPS/2` falls below
the epsilon floor applied to the midpoint density, making the first KL term
`(EPS/2)·log(1/2) < 0` dominate.  The claimed lower bound 0 of `[0, ln 2]`
therefore fails on the code (by a margin on the order of `EPS`). -/
theorem jensenShannon_negative_on_sub_eps_input :
    jensenShannon [EPS/2, 1 - EPS/2] [0, 1] 1 < 0 ∧
    (∀ x ∈ [EPS/2, 1 - EPS/2], (0:ℝ) ≤ x) ∧
    (∀ x ∈ ([0, 1] : List ℝ), (0:ℝ) ≤ x) ∧
    sum [EPS/2, 1 - EPS/2] 1 = 1 ∧ sum ([0, 1] : List ℝ) 1 = 1 := by
  have hEPSpos : (0:ℝ) < EPS := EPS_pos
  have hEPShalf : EPS ≤ 1/2 := by norm_num [EPS]
  have hm : List.zipWith (fun a b => 0.5 * (a + b)) [EPS/2, 1 - EPS/2] ([0, 1] : List ℝ)
      = [EPS/4, 1 - EPS/4] := by
    simp only [List.zipWith_cons_cons, List.zipWith_nil_right, List.cons.injEq,
      and_true]
    refine ⟨by ring, by ring⟩
  have hT1 : klTerm (EPS/2) (EPS/4) = -(EPS/2 * Real.log 2) := by
    have h1 : max (EPS/2) 0 = EPS/2 := max_eq_left (by positivity)
    have h2 : max (EPS/4) EPS = EPS := max_eq_right (by linarith)
    simp only [klTerm, h1, h2, gt_iff_lt]
    rw [if_pos (by positivity : (0:ℝ) < EPS/2)]
    rw [show EPS/2/EPS = (2:ℝ)⁻¹ by field_simp; ring, Real.log_inv]
    ring
  have hT2 : klTerm (1 - EPS/2) (1 - EPS/4)
      = (1 - EPS/2) * Real.log ((1 - EPS/2)/(1 - EPS/4)) := by
    have ha : (0:ℝ) < 1 - EPS/2 := by linarith
    have h1 : max (1 - EPS/2) 0 = 1 - EPS/2 := max_eq_left ha.le
    have h2 : max (1 - EPS/4) EPS = 1 - EPS/4 := max_eq_left (by linarith)
    simp only [klTerm, h1, h2, gt_iff_lt]
    rw [if_pos ha]
  have hT3 : klTerm 0 (EPS/4) = 0 := by
    simp [klTerm]
  have hT4 : klTerm 1 (1 - EPS/4) = -Real.log (1 - EPS/4) := by
    have h1 : max (1:ℝ) 0 = 1 := max_eq_left (by norm_num)
    have h2 : max (1 - EPS/4) EPS = 1 - EPS/4 := max_eq_left (by linarith)
    simp only [klTerm, h1, h2, gt_iff_lt]
    rw [if_pos (by norm_num : (0:ℝ) < 1)]
    rw [show (1:ℝ) / (1 - EPS/4) = (1 - EPS/4)⁻¹ by rw [one_div], Real.log_inv]
    ring
  have hjs_val : jensenShannon [EPS/2, 1 - EPS/2] [0, 1] 1
      = 0.5 * (-(EPS/2 * Real.log 2)
          + (1 - EPS/2) * Real.log ((1 - EPS/2)/(1 - EPS/4)))
        + 0.5 * (-Real.log (1 - EPS/4)) := by
    simp only [jensenShannon]
    rw [hm]
    unfold kl
    simp only [List.zipWith_cons_cons, List.zipWith_nil_right, List.sum_cons,
      List.sum_nil]
    rw [hT1, hT2, hT3, hT4]
    ring
  refine ⟨?_, by norm_num [EPS], by norm_num, by norm_num [sum], by norm_num [sum]⟩
  rw [hjs_val]
  have hA : Real.log ((1 - EPS/2)/(1 - EPS/4)) < 0 := by
    apply Real.log_neg
    · exact div_pos (by nlinarith) (by nlinarith)
    · rw [div_lt_one (by nlinarith)]
      nlinarith
  have hAcoef : (1 - EPS/2) * Real.log ((1 - EPS/2)/(1 - EPS/4)) < 0 :=
    mul_neg_of_pos_of_neg (by nlinarith) hA
  have hB : -Real.log (1 - EPS/4) ≤ EPS/3 := by
    have hmp : (0:ℝ) < 1 - EPS/4 := by linarith
    have hsub := Real.log_le_sub_one_of_pos (inv_pos.mpr hmp)
    rw [Real.log_inv] at hsub
    have h44 : (0:ℝ) < 4 - EPS := by linarith
    have hinv : (1 - EPS/4)⁻¹ - 1 = (EPS/4) / (1 - EPS/4) := by
      rw [eq_div_iff (ne_of_gt hmp), sub_mul, inv_mul_cancel₀ (ne_of_gt hmp)]
      ring
    have hbd : (EPS/4) / (1 - EPS/4) ≤ EPS/3 := by
      rw [div_le_div_iff hmp (by norm_num : (0:ℝ) < 3)]
      nlinarith
    linarith
  have hL := Real.log_two_gt_d9
  have hscale : EPS/2 * 0.6931471803 < EPS/2 * Real.log 2 :=
    mul_lt_mul_of_pos_left hL (by positivity)
  linarith

lemma normalizeWeights_length (comps : List Gaussian) :
    (normalizeWeights comps).length = comps.length := by
  by_cases h : (comps.map (fun c => max 0 c.weight)).sum = 0 <;>
    simp [normalizeWeights, h]

lemma sum_map_weight_add (l : List Gaussian) (d : ℝ) :
    (l.map (fun c => c.weight + d)).sum
      = (l.map Gaussian.weight).sum + l.length * d := by
  induction l with
  | nil => simp
  | cons c t ih =>
    simp only [List.map_cons, List.sum_cons, List.length_cons, ih]
    push_cast
    ring

lemma normalizeWeights_sum_one (comps : List Gaussian)
    (h : (comps.map (fun c => max 0 c.weight)).sum ≠ 0) :
    ((normalizeWeights comps).map Gaussian.weight).sum = 1 := by
  have hnw : normalizeWeights comps = comps.map (fun c =>
      { c with weight := max 0 c.weight / (comps.map (fun c => max 0 c.weight)).sum }) := by
    simp only [normalizeWeights, if_neg h]
  rw [hnw]
  have hmap : ((comps.map (fun c =>
      ({ c with weight := max 0 c.weight / (comps.map (fun c => max 0 c.weight)).sum } : Gaussian))).map Gaussian.weight)
      = comps.map (fun c =>
          max 0 c.weight * ((comps.map (fun c => max 0 c.weight)).sum)⁻¹) := by
    simp [List.map_map, Function.comp, div_eq_mul_inv]
  rw [hmap, List.sum_map_mul_right comps (fun c => max 0 c.weight) _,
    mul_inv_cancel₀ h]

/-- Every component of `normalizeWeights comps` keeps the mean and scale of
a component of `comps`. -/
lemma mem_normalizeWeights_shape (comps : List Gaussian) (c : Gaussian)
    (hc : c ∈ normalizeWeights comps) :
    ∃ c' ∈ comps, c.sigma = c'.sigma ∧ c.mean = c'.mean := by
  by_cases h : (comps.map (fun c => max 0 c.weight)).sum = 0 <;>
  · simp only [normalizeWeights, h, if_true, if_false, List.mem_map] at hc
    obtain ⟨c', hc', rfl⟩ := hc
    exact ⟨c', hc', rfl, rfl⟩

/-- The max-shifted softmax equals the plain normalized ratio: applied to
logs of positives it recovers the normalized values. -/
lemma softmax_map_log (l : List ℝ) (hpos : ∀ x ∈ l, 0 < x) :
    softmax (l.map Real.log) = l.map (fun x => x / l.sum) := by
  simp only [softmax]
  set M := listMax (l.map Real.log) with hM
  have hexps : (l.map Real.log).map (fun v => Real.exp (v - M))
      = l.map (fun x => x * Real.exp (-M)) := by
    rw [List.map_map]
    apply List.map_congr_left
    intro x hx
    simp only [Function.comp_apply]
    rw [sub_eq_add_neg, Real.exp_add, Real.exp_log (hpos x hx)]
  rw [hexps]
  have hsum : (l.map (fun x => x * Real.exp (-M))).sum = l.sum * Real.exp (-M) := by
    simpa using List.sum_map_mul_right l id (Real.exp (-M))
  rw [hsum, List.map_map]
  apply List.map_congr_left
  intro x hx
  simp only [Function.comp_apply]
  exact mul_div_mul_right x l.sum (ne_of_gt (Real.exp_pos (-M)))

lemma padTo_of_length (k : ℕ) (cs : List Gaussian) (h : cs.length = k) :
    padTo k cs = cs := by
  simp [padTo, h]

/-- Characterization of the gmm round trip: means and scales come back
exactly; the decoded weight of component `i` is
`(w_i + 1e-12) / (1 + k·1e-12)` where `w_i` is the normalized weight —
the `+1e-12` shift inside `packParams` survives the softmax. -/
lemma unpack_pack_gmm (k : ℕ) (comps : List Gaussian)
    (hlen : comps.length = k) (hk : 1 ≤ k)
    (hσ : ∀ c ∈ comps, 1e-3 ≤ c.sigma)
    (hw : ∀ c ∈ normalizeWeights comps, 0 < c.weight) :
    unpackParams (.gmm k) (packParams (.gmm k) comps)
      = (normalizeWeights comps).map (fun c =>
          ⟨c.mean, c.sigma, (c.weight + 1e-12) / (1 + (k : ℝ) * 1e-12)⟩) := by
  have hwslen : (normalizeWeights comps).length = k := by
    rw [normalizeWeights_length, hlen]
  set ws := normalizeWeights comps with hws
  have hclamp : (comps.map (fun c => max 0 c.weight)).sum ≠ 0 := by
    intro h0
    have hne : ws ≠ [] := by
      intro hnil
      rw [hnil] at hwslen
      simp at hwslen
      omega
    obtain ⟨c0, hc0⟩ := List.exists_mem_of_ne_nil ws hne
    have hpos0 := hw c0 hc0
    rw [hws] at hc0
    simp only [normalizeWeights, h0, if_true, List.mem_map] at hc0
    obtain ⟨c', -, rfl⟩ := hc0
    simp at hpos0
  set A := ws.map (fun c => c.mean) with hA
  set B := ws.map (fun c => Real.log c.sigma) with hB
  set C := ws.map (fun c => Real.log (c.weight + 1e-12)) with hC
  have hAlen : A.length = k := by rw [hA, List.length_map, hwslen]
  have hBlen : B.length = k := by rw [hB, List.length_map, hwslen]
  have hClen : C.length = k := by rw [hC, List.length_map, hwslen]
  have hpack : packParams (.gmm k) comps = A ++ B ++ C := by
    simp only [packParams]
    rw [← hws, List.take_of_length_le (le_of_eq hwslen),
      padTo_of_length k ws hwslen]
  have htake : (A ++ B ++ C).take k = A := by
    rw [List.append_assoc, ← hAlen, List.take_left]
  have hdrop1 : (A ++ B ++ C).drop k = B ++ C := by
    rw [List.append_assoc, ← hAlen, List.drop_left]
  have htakeB : (B ++ C).take k = B := by
    rw [← hBlen, List.take_left]
  have hdrop2 : (A ++ B ++ C).drop (2 * k) = C := by
    have h2 : (A ++ B).length = 2 * k := by
      rw [List.length_append, hAlen, hBlen]
      omega
    rw [← h2, List.drop_left]
  have htakeC : C.take k = C := List.take_of_length_le (le_of_eq hClen)
  have hwpos : ∀ x ∈ ws.map (fun c => c.weight + 1e-12), 0 < x := by
    intro x hx
    simp only [List.mem_map] at hx
    obtain ⟨c, hc, rfl⟩ := hx
    have := hw c hc
    have h12 : (0:ℝ) < 1e-12 := by norm_num
    linarith
  have hCeq : C = (ws.map (fun c => c.weight + 1e-12)).map Real.log := by
    rw [List.map_map]
    rfl
  have hsum1 : (ws.map (fun c => c.weight + 1e-12)).sum = 1 + (k:ℝ) * 1e-12 := by
    rw [sum_map_weight_add]
    have hs1 : (ws.map Gaussian.weight).sum = 1 := by
      rw [hws]
      exact normalizeWeights_sum_one comps hclamp
    rw [hs1, hwslen]
  have hsm : softmax C = ws.map (fun c => (c.weight + 1e-12) / (1 + (k:ℝ) * 1e-12)) := by
    rw [hCeq, softmax_map_log _ hwpos, List.map_map, hsum1]
    apply List.map_congr_left
    intro c hc
    simp only [Function.comp_apply]
  simp only [unpackParams]
  rw [hpack, htake, hdrop1, htakeB, hdrop2, htakeC, hsm]
  apply List.ext_getElem
  · simp [hwslen]
  · intro i h1 h2
    have hik : i < k := by simpa using h1
    have hiws : i < ws.length := by rw [hwslen]; exact hik
    have hiA : i < A.length := by rw [hAlen]; exact hik
    have hiB : i < B.length := by rw [hBlen]; exact hik
    have hiW : i < (ws.map (fun c => (c.weight + 1e-12) / (1 + (k:ℝ) * 1e-12))).length := by
      simpa [hwslen] using hik
    simp only [List.getElem_map, List.getElem_range,
      List.getD_eq_getElem A 0 hiA, List.getD_eq_getElem B 0 hiB,
      List.getD_eq_getElem _ 0 hiW]
    have hσi : 1e-3 ≤ ws[i].sigma := by
      obtain ⟨c', hc', hs, -⟩ :=
        mem_normalizeWeights_shape comps ws[i] (by rw [hws] at *; exact List.getElem_mem hiws)
      rw [hs]
      exact hσ c' hc'
    have hσpos : (0:ℝ) < ws[i].sigma := lt_of_lt_of_le (by norm_num) hσi
    have hAi : A[i] = ws[i].mean := by
      simp only [hA, List.getElem_map]
    have hBi : B[i] = Real.log ws[i].sigma := by
      simp only [hB, List.getElem_map]
    rw [hAi, hBi, Real.exp_log hσpos, max_eq_right hσi]

/-- The single-Gaussian round trip: mean and scale come back exactly, the
weight is fixed to 1. -/
lemma unpack_pack_gaussian (c : Gaussian) (hσ : 1e-3 ≤ c.sigma) :
    unpackParams .gaussian (packParams .gaussian [c]) = [⟨c.mean, c.sigma, 1⟩] := by
  have hσpos : (0:ℝ) < c.sigma := lt_of_lt_of_le (by norm_num) hσ
  simp only [packParams, unpackParams, List.headD]
  simp [Real.exp_log hσpos, max_eq_right hσ]

/-- C4 (amended): the pack/unpack round trip reproduces means and scales
exactly (for scales ≥ 1e-3), for both model kinds; for the k-mixture the
decoded weights are `(w_i + 1e-12)/(1 + k·1e-12)` — equal to the
normalized weights only up to the 1e-12 logit shift, not exactly. -/
theorem unpack_pack_roundtrip :
    (∀ (c : Gaussian), 1e-3 ≤ c.sigma →
      unpackParams .gaussian (packParams .gaussian [c]) = [⟨c.mean, c.sigma, 1⟩]) ∧
    (∀ (k : ℕ) (comps : List Gaussian), comps.length = k → 1 ≤ k →
      (∀ c ∈ comps, 1e-3 ≤ c.sigma) →
      (∀ c ∈ normalizeWeights comps, 0 < c.weight) →
      unpackParams (.gmm k) (packParams (.gmm k) comps)
        = (normalizeWeights comps).map (fun c =>
            ⟨c.mean, c.sigma, (c.weight + 1e-12) / (1 + (k : ℝ) * 1e-12)⟩)) :=
  ⟨unpack_pack_gaussian, unpack_pack_gmm⟩

/-- Witness for C4 at a single Gaussian and a 1-component mixture. -/
theorem unpack_pack_roundtrip_witness :
    unpackParams .gaussian (packParams .gaussian [⟨1, 2, 5⟩]) = [⟨1, 2, 1⟩] ∧
    unpackParams (.gmm 1) (packParams (.gmm 1) [⟨0, 1, 2⟩])
      = (normalizeWeights [⟨0, 1, 2⟩]).map (fun c =>
          ⟨c.mean, c.sigma, (c.weight + 1e-12) / (1 + ((1:ℕ) : ℝ) * 1e-12)⟩) :=
  ⟨unpack_pack_roundtrip.1 ⟨1, 2, 5⟩ (by norm_num),
   unpack_pack_roundtrip.2 1 [⟨0, 1, 2⟩] (by simp) (le_refl 1)
     (by norm_num) (by norm_num [normalizeWeights])⟩

/-- C4 counterexample: for the 2-mixture with weights 1 and 3 (normalized
weights 1/4 and 3/4, all positive, scales 1), the round-tripped weights are
NOT the normalized weights: the first decoded weight is
`(1/4 + 1e-12)/(1 + 2·1e-12) ≠ 1/4`, because `packParams` shifts weights by
1e-12 before taking logs. -/
theorem unpack_pack_weights_not_exact :
    (unpackParams (.gmm 2) (packParams (.gmm 2) [⟨0, 1, 1⟩, ⟨0, 1, 3⟩])).map
        Gaussian.weight
      ≠ (normalizeWeights [⟨0, 1, 1⟩, ⟨0, 1, 3⟩]).map Gaussian.weight := by
  have hnw : normalizeWeights [⟨0, 1, 1⟩, ⟨0, 1, 3⟩]
      = [⟨0, 1, 1/4⟩, ⟨0, 1, 3/4⟩] := by
    have hsum : (([⟨0, 1, 1⟩, ⟨0, 1, 3⟩] : List Gaussian).map
        (fun c => max 0 c.weight)).sum = 4 := by norm_num
    simp only [normalizeWeights, hsum]
    norm_num
  have hrt := unpack_pack_gmm 2 [⟨0, 1, 1⟩, ⟨0, 1, 3⟩] (by simp) (by norm_num)
    (by norm_num) (by rw [hnw]; norm_num)
  rw [hrt, hnw]
  simp only [List.map_cons, List.map_nil, ne_eq, List.cons.injEq]
  intro hcontra
  have h1 := hcontra.1
  norm_num at h1

/-- C1 counterexample: at the invalid configuration `dx = -1` (non-positive
spacing) with a nonempty grid, `computeAll` does not fail: it returns an
ordinary result struct — whose Hellinger entry is even `√2 > 1`, outside
the documented `[0,1]` range.  No `InvalidConfiguration` signal exists
anywhere in the core. -/
theorem computeAll_nonpositive_dx_returns_result :
    (computeAll [1] [1] (-1)).hellinger = Real.sqrt 2 ∧
    1 < (computeAll [1] [1] (-1)).hellinger := by
  have hval : (computeAll [1] [1] (-1)).hellinger = Real.sqrt 2 := by
    norm_num [computeAll, normalizeDensity, sum, hellingerAndBhattacharyya,
      bhattCoeff]
  refine ⟨hval, ?_⟩
  rw [hval]
  rw [show (1:ℝ) = Real.sqrt 1 by simp]
  exact Real.sqrt_lt_sqrt (by norm_num) (by norm_num)

/-- C1 (amended): the core never checks its configuration: `computeAll` on
an empty grid with `dx = 0` and `fitModelToTarget` with `k = 0 < 1`
both run to completion and return ordinary results (no error signal,
no `InvalidConfiguration` condition). -/
theorem core_computes_on_invalid_configuration :
    computeAll [] [] 0
      = { kl_pq := 0, kl_qp := 0, js := 0, jeffreys := 0, cross_pq := 0,
          cross_qp := 0, tv := 0, hellinger := 1,
          bhattacharyya := -Real.log EPS, w1 := 0 } ∧
    fitModelToTarget (.gmm 0) [] [1] [0] 1 .kl_pq 1 1 (0, 1)
        (fun _ => false) = ([], [0]) := by
  constructor
  · norm_num [computeAll, normalizeDensity, sum, kl, crossEntropy,
      jensenShannon, totalVariation, hellingerAndBhattacharyya, bhattCoeff,
      wasserstein1, cumsum, rawCumsum, max_eq_right EPS_pos.le,
      Real.sqrt_one]
  · norm_num [fitModelToTarget, fitGo, fitStep, packParams, unpackParams,
      normalizeWeights, padTo, makeEps, finiteDiffGrad, clampMeans,
      objectiveForTheta, objectiveValue, densityOnGrid, mixturePDFArray,
      mixturePDFAt, normalizeDensity, sum, computeAll, kl, klTerm]

end
